import Mathlib

/-!
Verification of the chat-markup transcoder in
`src/data/src/message/formatting/encode.rs` (halloy).

The Rust code is a nom-based lexer over `&str` followed by a token-to-wire
encoder.  We embed it shallowly: input strings become `List Char`, and each
nom combinator becomes a function `List Char → Option (α × List Char)`
returning the parsed value and the remaining input (nom's `Err` outcomes all
collapse to `none`; the only `cut` in the source wraps the whole top-level
parser, where the `Error`/`Failure` distinction is unobservable).

nom's `many0`/`many1`/`many_m_n` loops fail on an iteration whose inner
parser consumes no input, so every iteration strictly shrinks the remaining
input; the loops are therefore embedded with an explicit fuel of
`length + 1`, which can never be exhausted at the call sites used here.
-/

namespace Halloy

/-- A character-level parser in the style of nom: on success, the parsed
value plus the remaining input. -/
def Parser (α : Type) : Type := List Char → Option (α × List Char)

/-- Match a literal character sequence at the head of the input and return
the rest (the core of nom's `tag`). -/
def dropTag : List Char → List Char → Option (List Char)
  | [], s => some s
  | _ :: _, [] => none
  | l :: ls, c :: cs => if c = l then dropTag ls cs else none

/-- nom `bytes::complete::tag`. -/
def tagP (lit : List Char) : Parser (List Char) := fun s =>
  (dropTag lit s).map fun r => (lit, r)

/-- nom `character::complete::satisfy`. -/
def satisfyP (f : Char → Bool) : Parser Char := fun s =>
  match s with
  | [] => none
  | c :: r => if f c then some (c, r) else none

/-- nom `character::complete::char`. -/
def charP (c : Char) : Parser Char := satisfyP fun d => d = c

/-- nom `character::complete::anychar`. -/
def anycharP : Parser Char := fun s =>
  match s with
  | [] => none
  | c :: r => some (c, r)

/-- nom `character::complete::none_of`. -/
def noneOfP (bad : List Char) : Parser Char := fun s =>
  match s with
  | [] => none
  | c :: r => if c ∈ bad then none else some (c, r)

/-- nom `combinator::map`. -/
def mapP (p : Parser α) (f : α → β) : Parser β := fun s =>
  (p s).map fun x => (f x.1, x.2)

/-- nom `combinator::value`. -/
def valueP (v : β) (p : Parser α) : Parser β := mapP p fun _ => v

/-- nom `combinator::map_opt`. -/
def mapOptP (p : Parser α) (f : α → Option β) : Parser β := fun s =>
  (p s).bind fun x => (f x.1).map fun b => (b, x.2)

/-- nom `branch::alt` restricted to two alternatives; the source's n-ary
`alt` tuples are right-nested chains of this. -/
def orElseP (p q : Parser α) : Parser α := fun s =>
  match p s with
  | some x => some x
  | none => q s

/-- nom `combinator::cond`. -/
def condP (b : Bool) (p : Parser α) : Parser (Option α) := fun s =>
  if b then mapP p some s else some (none, s)

/-- nom `combinator::opt`. -/
def optP (p : Parser α) : Parser (Option α) := fun s =>
  match p s with
  | some (a, r) => some (some a, r)
  | none => some (none, s)

/-- Sequencing, nom `sequence::tuple` for a pair; longer source tuples are
right-nested chains of this. -/
def andThenP (p : Parser α) (q : Parser β) : Parser (α × β) := fun s =>
  (p s).bind fun x => (q x.2).map fun y => ((x.1, y.1), y.2)

/-- nom `sequence::delimited`. -/
def delimitedP (a : Parser α) (b : Parser β) (c : Parser γ) : Parser β := fun s =>
  (a s).bind fun x => (b x.2).bind fun y => (c y.2).map fun z => (y.1, z.2)

/-- nom `combinator::eof`. -/
def eofP : Parser Unit := fun s =>
  match s with
  | [] => some ((), [])
  | _ :: _ => none

/-- nom `combinator::recognize`: run the inner parser and return the slice
of input it consumed (all parsers here consume from the front, so the
consumed slice is the prefix of the given length). -/
def recognizeP (p : Parser α) : Parser (List Char) := fun s =>
  (p s).map fun x => (s.take (s.length - x.2.length), x.2)

/-- Fueled body of nom `multi::many0`: stop when the inner parser fails,
fail the whole loop when an iteration consumes nothing (nom's `Many0`
error). -/
def many0F (p : Parser α) : Nat → Parser (List α)
  | 0 => fun _ => none
  | fuel + 1 => fun s =>
    match p s with
    | none => some ([], s)
    | some (a, r) =>
      if r.length = s.length then none
      else (many0F p fuel r).map fun x => (a :: x.1, x.2)

/-- nom `multi::many0`; since each iteration strictly consumes, a fuel of
`length + 1` is never exhausted. -/
def many0P (p : Parser α) : Parser (List α) := fun s => many0F p (s.length + 1) s

/-- nom `multi::many1`: one mandatory parse, then the `many0` loop. -/
def many1P (p : Parser α) : Parser (List α) := fun s =>
  (p s).bind fun x => (many0P p x.2).map fun y => (x.1 :: y.1, y.2)

/-- Fueled nom `multi::many_m_n` (at least `lo`, at most the fuel argument,
greedy, with the same no-consumption check as `many0`). -/
def manyMNF (p : Parser α) : Nat → Nat → Parser (List α)
  | lo, 0 => fun s => if lo = 0 then some ([], s) else none
  | lo, hi + 1 => fun s =>
    match p s with
    | none => if lo = 0 then some ([], s) else none
    | some (a, r) =>
      if r.length = s.length then none
      else (manyMNF p (lo - 1) hi r).map fun x => (a :: x.1, x.2)

/-- The backtick character, used as the code-span delimiter. -/
def btick : Char := Char.ofNat 96

/-- Modelled from the spec: the `Modifier` enumeration lives in the parent
formatting module (not part of the reviewed sources); each variant maps to
one fixed wire-protocol control byte (`Modifier::char`), the legacy IRC
formatting bytes. -/
inductive Modifier
  | Bold
  | Italics
  | Monospace
  | Color
  | Reset
deriving DecidableEq

/-- Modelled from the spec: the wire control byte of each modifier. -/
def Modifier.char : Modifier → Char
  | .Bold => Char.ofNat 2
  | .Italics => Char.ofNat 29
  | .Monospace => Char.ofNat 17
  | .Color => Char.ofNat 3
  | .Reset => Char.ofNat 15

/-- Modelled from the spec: the fixed 16-slot color palette of the parent
formatting module, in the order the `color_name` alternatives list it,
which is also numeric-code order (white = 0 ... lightgrey = 15). -/
inductive Color
  | White
  | Black
  | Blue
  | Green
  | Red
  | Brown
  | Magenta
  | Orange
  | Yellow
  | LightGreen
  | Cyan
  | LightCyan
  | LightBlue
  | Pink
  | Grey
  | LightGrey
deriving DecidableEq

/-- Modelled from the spec: `Color::code`, the partial map from a numeric
code to the palette color it denotes; codes outside the palette are
invalid. -/
def Color.code : Nat → Option Color
  | 0 => some .White
  | 1 => some .Black
  | 2 => some .Blue
  | 3 => some .Green
  | 4 => some .Red
  | 5 => some .Brown
  | 6 => some .Magenta
  | 7 => some .Orange
  | 8 => some .Yellow
  | 9 => some .LightGreen
  | 10 => some .Cyan
  | 11 => some .LightCyan
  | 12 => some .LightBlue
  | 13 => some .Pink
  | 14 => some .Grey
  | 15 => some .LightGrey
  | _ => none

/-- Modelled from the spec: `Color::digit`, the canonical decimal digit
representation of a color's numeric code, used in the wire encoding. -/
def Color.digit : Color → List Char
  | .White => ['0']
  | .Black => ['1']
  | .Blue => ['2']
  | .Green => ['3']
  | .Red => ['4']
  | .Brown => ['5']
  | .Magenta => ['6']
  | .Orange => ['7']
  | .Yellow => ['8']
  | .LightGreen => ['9']
  | .Cyan => ['1', '0']
  | .LightCyan => ['1', '1']
  | .LightBlue => ['1', '2']
  | .Pink => ['1', '3']
  | .Grey => ['1', '4']
  | .LightGrey => ['1', '5']

/-- The `Markdown` token payloads (`encode.rs` lines 211-218); the borrowed
`&str` slices become character lists. -/
inductive Markdown
  | Bold (t : List Char)
  | Italic (t : List Char)
  | ItalicBold (t : List Char)
  | Code (t : List Char)
  | Spoiler (t : List Char)
deriving DecidableEq

/-- The `Dollar` directive tokens (`encode.rs` lines 220-228). -/
inductive Dollar
  | Bold
  | Italics
  | Monospace
  | Reset
  | StartColor (fg : Color) (bg : Option Color)
  | EndColor
deriving DecidableEq

/-- The lexer's `Token` type (`encode.rs` lines 203-209). -/
inductive Token
  | Plain (t : List Char)
  | Markdown (md : Markdown)
  | Dollar (d : Dollar)
  | Unknown (c : Char)
deriving DecidableEq

/-- `skip` from `encode.rs` lines 121-126: succeed with the inner parser's
result only when the flag is false. -/
def skipP (sk : Bool) (p : Parser α) : Parser α :=
  mapOptP (condP (!sk) p) fun x => x

/-- `escaped` from `encode.rs` lines 107-119: one escaped or ordinary
character of a plain run. -/
def escapedP (markdown_only : Bool) : Parser Char :=
  orElseP (valueP '*' (tagP ['\\', '*']))
  (orElseP (valueP '_' (tagP ['\\', '_']))
  (orElseP (valueP btick (tagP ['\\', btick]))
  (orElseP (valueP '|' (tagP ['\\', '|']))
  (orElseP (noneOfP ['*', '_', btick, '|'])
  (skipP markdown_only
    (orElseP (valueP '$' (tagP ['\\', '$']))
    (orElseP (valueP '$' (tagP ['$', '$']))
    (noneOfP ['$']))))))))

/-- `plain` from `encode.rs` lines 103-105. -/
def plainP (markdown_only : Bool) : Parser (List Char) :=
  recognizeP (many1P (escapedP markdown_only))

/-- The `between` closure of `markdown` (`encode.rs` line 129). -/
def betweenP (markdown_only : Bool) (a b : List Char) : Parser (List Char) :=
  delimitedP (tagP a) (plainP markdown_only) (tagP b)

/-- `markdown` from `encode.rs` lines 128-149, with the source's exact
alternative order. -/
def markdownP (markdown_only : Bool) : Parser Markdown :=
  let between := betweenP markdown_only
  let italic := orElseP (between ['_'] ['_']) (between ['*'] ['*'])
  let bold := orElseP (between ['_', '_'] ['_', '_']) (between ['*', '*'] ['*', '*'])
  let italic_bold :=
    orElseP (between ['_', '_', '_'] ['_', '_', '_'])
    (orElseP (between ['*', '*', '*'] ['*', '*', '*'])
    (orElseP (between ['*', '*', '_'] ['_', '*', '*'])
    (between ['_', '_', '*'] ['*', '_', '_'])))
  let code := between [btick] [btick]
  let spoiler := between ['|', '|'] ['|', '|']
  orElseP (mapP italic_bold Markdown.ItalicBold)
  (orElseP (mapP bold Markdown.Bold)
  (orElseP (mapP italic Markdown.Italic)
  (orElseP (mapP code Markdown.Code)
  (mapP spoiler Markdown.Spoiler))))

/-- The `color_name` alternatives of `dollar` (`encode.rs` lines 152-171),
in source order. -/
def colorNameP : Parser Color :=
  orElseP (mapP (tagP "white".data) fun _ => Color.White)
  (orElseP (mapP (tagP "black".data) fun _ => Color.Black)
  (orElseP (mapP (tagP "blue".data) fun _ => Color.Blue)
  (orElseP (mapP (tagP "green".data) fun _ => Color.Green)
  (orElseP (mapP (tagP "red".data) fun _ => Color.Red)
  (orElseP (mapP (tagP "brown".data) fun _ => Color.Brown)
  (orElseP (mapP (tagP "magenta".data) fun _ => Color.Magenta)
  (orElseP (mapP (tagP "orange".data) fun _ => Color.Orange)
  (orElseP (mapP (tagP "yellow".data) fun _ => Color.Yellow)
  (orElseP (mapP (tagP "lightgreen".data) fun _ => Color.LightGreen)
  (orElseP (mapP (tagP "cyan".data) fun _ => Color.Cyan)
  (orElseP (mapP (tagP "lightcyan".data) fun _ => Color.LightCyan)
  (orElseP (mapP (tagP "lightblue".data) fun _ => Color.LightBlue)
  (orElseP (mapP (tagP "pink".data) fun _ => Color.Pink)
  (orElseP (mapP (tagP "grey".data) fun _ => Color.Grey)
  (mapP (tagP "lightgrey".data) fun _ => Color.LightGrey)))))))))))))))

/-- Rust `str::parse::<u8>` on a digit run: the decimal value, if it fits
in a byte. -/
def parseU8 (ds : List Char) : Option Nat :=
  let n := ds.foldl (fun a c => a * 10 + (c.toNat - 48)) 0
  if n < 256 then some n else none

/-- The `color_digit` closure of `dollar` (`encode.rs` lines 172-178):
one or two digits whose value is a valid palette code. -/
def colorDigitP : Parser Color :=
  mapOptP (recognizeP (manyMNF (satisfyP fun c => c.isDigit) 1 2))
    fun ds => (parseU8 ds).bind Color.code

/-- The `color` closure of `dollar` (`encode.rs` line 179). -/
def colorP : Parser Color := orElseP colorNameP colorDigitP

/-- The `background` closure of `dollar` (`encode.rs` lines 181-184). -/
def backgroundP : Parser (Option Color) :=
  mapP (optP (andThenP (charP ',') colorP)) fun maybe => maybe.map fun x => x.2

/-- The `start_color` closure of `dollar` (`encode.rs` lines 186-190). -/
def startColorP : Parser (Color × Option Color) :=
  mapP (andThenP (tagP "$c".data) (andThenP colorP backgroundP)) fun x => x.2

/-- `dollar` from `encode.rs` lines 151-201. -/
def dollarP : Parser Dollar :=
  orElseP (mapP (tagP "$b".data) fun _ => Dollar.Bold)
  (orElseP (mapP (tagP "$i".data) fun _ => Dollar.Italics)
  (orElseP (mapP (tagP "$m".data) fun _ => Dollar.Monospace)
  (orElseP (mapP (tagP "$r".data) fun _ => Dollar.Reset)
  (orElseP (mapP startColorP fun x => Dollar.StartColor x.1 x.2)
  (mapP (tagP "$c".data) fun _ => Dollar.EndColor)))))

/-- `token` from `encode.rs` lines 94-101. -/
def tokenP (markdown_only : Bool) : Parser Token :=
  orElseP (mapP (plainP markdown_only) Token.Plain)
  (orElseP (mapP (markdownP markdown_only) Token.Markdown)
  (orElseP (skipP markdown_only (mapP dollarP Token.Dollar))
  (mapP anycharP Token.Unknown)))

/-- `parse` from `encode.rs` lines 84-92: all tokens, then end of input
(the `cut` only reclassifies the error and is invisible here). -/
def parse (input : List Char) (markdown_only : Bool) : Option (List Token) :=
  ((andThenP (many0P (tokenP markdown_only)) eofP) input).map fun x => x.1.1

/-- The per-token rendering of the `for` loop in `encode` (`encode.rs`
lines 24-79). -/
def renderToken : Token → List Char
  | .Plain t => t
  | .Markdown md =>
    match md with
    | .Bold t => Modifier.char .Bold :: t ++ [Modifier.char .Bold]
    | .Italic t => Modifier.char .Italics :: t ++ [Modifier.char .Italics]
    | .ItalicBold t =>
      Modifier.char .Bold :: Modifier.char .Italics :: t
        ++ [Modifier.char .Bold, Modifier.char .Italics]
    | .Code t => Modifier.char .Monospace :: t ++ [Modifier.char .Monospace]
    | .Spoiler t =>
      Modifier.char .Color :: Color.digit .Black
        ++ ',' :: Color.digit .Black ++ t ++ [Modifier.char .Color]
  | .Dollar d =>
    match d with
    | .Bold => [Modifier.char .Bold]
    | .Italics => [Modifier.char .Italics]
    | .Monospace => [Modifier.char .Monospace]
    | .Reset => [Modifier.char .Reset]
    | .StartColor fg bg =>
      Modifier.char .Color :: fg.digit
        ++ (match bg with
            | none => []
            | some b => ',' :: b.digit)
    | .EndColor => [Modifier.char .Color]
  | .Unknown c => [c]

/-- The output accumulation of `encode`'s token loop. -/
def renderTokens (ts : List Token) : List Char :=
  (ts.map renderToken).flatten

/-- The two arms of `encode` after lexing: the `let ... else` fallback
returns the input, otherwise the token loop renders. -/
def encodeOpt : Option (List Token) → List Char → List Char
  | none, text => text
  | some ts, _ => renderTokens ts

/-- `encode` from `encode.rs` lines 17-82. -/
def encode (text : List Char) (markdown_only : Bool) : List Char :=
  encodeOpt (parse text markdown_only) text

/-- Instrument a parser to also report the input slice it consumed
(nom's `consumed` combinator); used to state the lexer coverage
invariant. -/
def spanP (p : Parser α) : Parser (α × List Char) := fun s =>
  (p s).map fun x => ((x.1, s.take (s.length - x.2.length)), x.2)

/-- The lexer of `parse`, instrumented so every token is paired with the
input slice it was derived from. -/
def parseSpans (input : List Char) (markdown_only : Bool) :
    Option (List (Token × List Char)) :=
  ((andThenP (many0P (spanP (tokenP markdown_only))) eofP) input).map fun x => x.1.1

/-- A parser that, on success, leaves a strict suffix: it consumed at
least one character. -/
def Consumes (p : Parser α) : Prop :=
  ∀ s a r, p s = some (a, r) → r.length < s.length

/-- A parser whose remaining input never grows. -/
def Bounded (p : Parser α) : Prop :=
  ∀ s a r, p s = some (a, r) → r.length ≤ s.length

/-- A parser that consumes from the front: the remaining input is a
suffix of the given input. -/
def Splits (p : Parser α) : Prop :=
  ∀ s a r, p s = some (a, r) → ∃ c, s = c ++ r

theorem Splits.bounded {p : Parser α} (h : Splits p) : Bounded p := by
  intro s a r hs
  obtain ⟨c, rfl⟩ := h s a r hs
  simp

theorem dropTag_append : ∀ (lit s r : List Char), dropTag lit s = some r → s = lit ++ r := by
  intro lit
  induction lit with
  | nil =>
    intro s r h
    simp only [dropTag, Option.some_inj] at h
    simp [h]
  | cons l ls ih =>
    intro s r h
    cases s with
    | nil => simp [dropTag] at h
    | cons c cs =>
      by_cases hc : c = l
      · have h2 : dropTag ls cs = some r := by simpa [dropTag, hc] using h
        simp [hc, ih cs r h2]
      · simp [dropTag, hc] at h

theorem tagP_eq_some {lit s a r} (h : tagP lit s = some (a, r)) :
    a = lit ∧ s = lit ++ r := by
  simp only [tagP, Option.map_eq_some'] at h
  obtain ⟨r0, hd, he⟩ := h
  injection he with h1 h2
  subst h2
  exact ⟨h1.symm, dropTag_append lit s _ hd⟩

theorem satisfyP_eq_some {f s a r} (h : satisfyP f s = some (a, r)) :
    s = a :: r ∧ f a = true := by
  cases s with
  | nil => simp [satisfyP] at h
  | cons c cs =>
    by_cases hf : f c
    · simp only [satisfyP, hf, if_true, Option.some_inj, Prod.mk.injEq] at h
      obtain ⟨rfl, rfl⟩ := h
      exact ⟨rfl, hf⟩
    · simp [satisfyP, hf] at h

theorem anycharP_eq_some {s : List Char} {a r} (h : anycharP s = some (a, r)) :
    s = a :: r := by
  cases s with
  | nil => simp [anycharP] at h
  | cons c cs =>
    simp only [anycharP, Option.some_inj, Prod.mk.injEq] at h
    obtain ⟨rfl, rfl⟩ := h
    rfl

theorem noneOfP_eq_some {bad s a r} (h : noneOfP bad s = some (a, r)) :
    s = a :: r ∧ a ∉ bad := by
  cases s with
  | nil => simp [noneOfP] at h
  | cons c cs =>
    by_cases hm : c ∈ bad
    · simp [noneOfP, hm] at h
    · simp only [noneOfP, if_neg hm, Option.some_inj, Prod.mk.injEq] at h
      obtain ⟨rfl, rfl⟩ := h
      exact ⟨rfl, hm⟩

theorem noneOfP_cons_not_mem {bad} {a : Char} {t} (hm : ¬a ∈ bad) :
    noneOfP bad (a :: t) = some (a, t) := by
  simp [noneOfP, hm]

theorem mapP_eq_some {p : Parser α} {f : α → β} {s b r}
    (h : mapP p f s = some (b, r)) : ∃ a, p s = some (a, r) ∧ b = f a := by
  simp only [mapP, Option.map_eq_some'] at h
  obtain ⟨⟨a, r0⟩, hp, he⟩ := h
  injection he with h1 h2
  subst h2
  exact ⟨a, hp, h1.symm⟩

theorem mapOptP_eq_some {p : Parser α} {f : α → Option β} {s b r}
    (h : mapOptP p f s = some (b, r)) : ∃ a, p s = some (a, r) ∧ f a = some b := by
  simp only [mapOptP, Option.bind_eq_some, Option.map_eq_some'] at h
  obtain ⟨⟨a, r0⟩, hp, b0, hf, he⟩ := h
  injection he with h1 h2
  subst h1
  subst h2
  exact ⟨a, hp, hf⟩

theorem orElseP_eq_some {p q : Parser α} {s x} (h : orElseP p q s = some x) :
    p s = some x ∨ (p s = none ∧ q s = some x) := by
  unfold orElseP at h
  cases hp : p s with
  | none => rw [hp] at h; exact Or.inr ⟨rfl, h⟩
  | some y => rw [hp] at h; exact Or.inl h

theorem orElseP_some_left {p q : Parser α} {s x} (h : p s = some x) :
    orElseP p q s = some x := by
  unfold orElseP
  rw [h]

theorem orElseP_isSome_right {p q : Parser α} {s} (h : (q s).isSome) :
    ((orElseP p q) s).isSome := by
  unfold orElseP
  cases hp : p s with
  | none => exact h
  | some y => rfl

theorem skipP_true_none {p : Parser α} {s} : skipP true p s = none := rfl

theorem skipP_false_eq {p : Parser α} {s} : skipP false p s = p s := by
  unfold skipP mapOptP condP mapP
  cases hp : p s with
  | none => rfl
  | some x => rfl

theorem skipP_eq_some {sk} {p : Parser α} {s x} (h : skipP sk p s = some x) :
    sk = false ∧ p s = some x := by
  cases sk with
  | true => rw [skipP_true_none] at h; exact absurd h (by simp)
  | false => rw [skipP_false_eq] at h; exact ⟨rfl, h⟩

theorem optP_eq_some {p : Parser α} {s ob r} (h : optP p s = some (ob, r)) :
    (∃ a, p s = some (a, r) ∧ ob = some a) ∨ (p s = none ∧ ob = none ∧ r = s) := by
  unfold optP at h
  cases hp : p s with
  | none =>
    rw [hp] at h
    simp only [Option.some_inj, Prod.mk.injEq] at h
    exact Or.inr ⟨rfl, h.1.symm, h.2.symm⟩
  | some y =>
    rw [hp] at h
    simp only [Option.some_inj, Prod.mk.injEq] at h
    exact Or.inl ⟨y.1, by rw [← h.2], h.1.symm⟩

theorem andThenP_eq_some {p : Parser α} {q : Parser β} {s x r}
    (h : andThenP p q s = some (x, r)) :
    ∃ r1, p s = some (x.1, r1) ∧ q r1 = some (x.2, r) := by
  simp only [andThenP, Option.bind_eq_some, Option.map_eq_some'] at h
  obtain ⟨⟨a, r1⟩, hp, ⟨b, r2⟩, hq, he⟩ := h
  injection he with h1 h2
  subst h2
  subst h1
  exact ⟨r1, hp, hq⟩

theorem delimitedP_eq_some {a : Parser α} {b : Parser β} {c : Parser γ} {s x r}
    (h : delimitedP a b c s = some (x, r)) :
    ∃ y1 r1 r2 y3, a s = some (y1, r1) ∧ b r1 = some (x, r2) ∧ c r2 = some (y3, r) := by
  simp only [delimitedP, Option.bind_eq_some, Option.map_eq_some'] at h
  obtain ⟨⟨y1, r1⟩, ha, ⟨y2, r2⟩, hb, ⟨y3, r3⟩, hc, he⟩ := h
  injection he with h1 h2
  subst h2
  subst h1
  exact ⟨y1, r1, r2, y3, ha, hb, hc⟩

theorem recognizeP_eq_some {p : Parser α} {s x r}
    (h : recognizeP p s = some (x, r)) :
    ∃ a, p s = some (a, r) ∧ x = s.take (s.length - r.length) := by
  simp only [recognizeP, Option.map_eq_some'] at h
  obtain ⟨⟨a, r0⟩, hp, he⟩ := h
  injection he with h1 h2
  subst h2
  exact ⟨a, hp, h1.symm⟩

theorem eofP_eq_some {s : List Char} {x} (h : eofP s = some x) : s = [] := by
  cases s with
  | nil => rfl
  | cons c cs => simp [eofP] at h

theorem tagP_splits (lit : List Char) : Splits (tagP lit) := by
  intro s a r h
  exact ⟨lit, (tagP_eq_some h).2⟩

theorem tagP_consumes (lit : List Char) (hne : lit ≠ []) : Consumes (tagP lit) := by
  intro s a r h
  rw [(tagP_eq_some h).2, List.length_append]
  have : 0 < lit.length := List.length_pos.mpr hne
  omega

theorem satisfyP_splits (f : Char → Bool) : Splits (satisfyP f) :=
  fun _ a _ h => ⟨[a], (satisfyP_eq_some h).1⟩

theorem satisfyP_consumes (f : Char → Bool) : Consumes (satisfyP f) := by
  intro s a r h
  rw [(satisfyP_eq_some h).1]
  simp

theorem anycharP_splits : Splits anycharP :=
  fun _ a _ h => ⟨[a], anycharP_eq_some h⟩

theorem anycharP_consumes : Consumes anycharP := by
  intro s a r h
  rw [anycharP_eq_some h]
  simp

theorem noneOfP_splits (bad : List Char) : Splits (noneOfP bad) :=
  fun _ a _ h => ⟨[a], (noneOfP_eq_some h).1⟩

theorem noneOfP_consumes (bad : List Char) : Consumes (noneOfP bad) := by
  intro s a r h
  rw [(noneOfP_eq_some h).1]
  simp

theorem mapP_splits {p : Parser α} {f : α → β} (hp : Splits p) : Splits (mapP p f) := by
  intro s b r h
  obtain ⟨a, ha, -⟩ := mapP_eq_some h
  exact hp s a r ha

theorem mapP_consumes {p : Parser α} {f : α → β} (hp : Consumes p) :
    Consumes (mapP p f) := by
  intro s b r h
  obtain ⟨a, ha, -⟩ := mapP_eq_some h
  exact hp s a r ha

theorem valueP_splits {p : Parser α} (v : β) (hp : Splits p) : Splits (valueP v p) :=
  mapP_splits hp

theorem valueP_consumes {p : Parser α} (v : β) (hp : Consumes p) :
    Consumes (valueP v p) :=
  mapP_consumes hp

theorem mapOptP_splits {p : Parser α} {f : α → Option β} (hp : Splits p) :
    Splits (mapOptP p f) := by
  intro s b r h
  obtain ⟨a, ha, -⟩ := mapOptP_eq_some h
  exact hp s a r ha

theorem mapOptP_consumes {p : Parser α} {f : α → Option β} (hp : Consumes p) :
    Consumes (mapOptP p f) := by
  intro s b r h
  obtain ⟨a, ha, -⟩ := mapOptP_eq_some h
  exact hp s a r ha

theorem orElseP_splits {p q : Parser α} (hp : Splits p) (hq : Splits q) :
    Splits (orElseP p q) := by
  intro s a r h
  rcases orElseP_eq_some h with h1 | ⟨-, h2⟩
  exacts [hp s a r h1, hq s a r h2]

theorem orElseP_consumes {p q : Parser α} (hp : Consumes p) (hq : Consumes q) :
    Consumes (orElseP p q) := by
  intro s a r h
  rcases orElseP_eq_some h with h1 | ⟨-, h2⟩
  exacts [hp s a r h1, hq s a r h2]

theorem skipP_splits {sk} {p : Parser α} (hp : Splits p) : Splits (skipP sk p) := by
  intro s a r h
  exact hp s a r (skipP_eq_some h).2

theorem skipP_consumes {sk} {p : Parser α} (hp : Consumes p) : Consumes (skipP sk p) := by
  intro s a r h
  exact hp s a r (skipP_eq_some h).2

theorem optP_splits {p : Parser α} (hp : Splits p) : Splits (optP p) := by
  intro s ob r h
  rcases optP_eq_some h with ⟨a, ha, -⟩ | ⟨-, -, rfl⟩
  · exact hp s a r ha
  · exact ⟨[], rfl⟩

theorem andThenP_splits {p : Parser α} {q : Parser β} (hp : Splits p) (hq : Splits q) :
    Splits (andThenP p q) := by
  intro s x r h
  obtain ⟨r1, h1, h2⟩ := andThenP_eq_some h
  obtain ⟨c1, rfl⟩ := hp s x.1 r1 h1
  obtain ⟨c2, rfl⟩ := hq r1 x.2 r h2
  exact ⟨c1 ++ c2, (List.append_assoc c1 c2 r).symm⟩

theorem andThenP_consumes_left {p : Parser α} {q : Parser β}
    (hp : Consumes p) (hq : Bounded q) : Consumes (andThenP p q) := by
  intro s x r h
  obtain ⟨r1, h1, h2⟩ := andThenP_eq_some h
  exact lt_of_le_of_lt (hq r1 x.2 r h2) (hp s x.1 r1 h1)

theorem delimitedP_splits {a : Parser α} {b : Parser β} {c : Parser γ}
    (ha : Splits a) (hb : Splits b) (hc : Splits c) : Splits (delimitedP a b c) := by
  intro s x r h
  obtain ⟨y1, r1, r2, y3, h1, h2, h3⟩ := delimitedP_eq_some h
  obtain ⟨c1, rfl⟩ := ha s y1 r1 h1
  obtain ⟨c2, rfl⟩ := hb r1 x r2 h2
  obtain ⟨c3, rfl⟩ := hc r2 y3 r h3
  exact ⟨c1 ++ (c2 ++ c3), by simp [List.append_assoc]⟩

theorem delimitedP_consumes {a : Parser α} {b : Parser β} {c : Parser γ}
    (ha : Consumes a) (hb : Bounded b) (hc : Bounded c) : Consumes (delimitedP a b c) := by
  intro s x r h
  obtain ⟨y1, r1, r2, y3, h1, h2, h3⟩ := delimitedP_eq_some h
  exact lt_of_le_of_lt (le_trans (hc r2 y3 r h3) (hb r1 x r2 h2)) (ha s y1 r1 h1)

theorem recognizeP_splits {p : Parser α} (hp : Splits p) : Splits (recognizeP p) := by
  intro s x r h
  obtain ⟨a, ha, -⟩ := recognizeP_eq_some h
  exact hp s a r ha

theorem recognizeP_consumes {p : Parser α} (hp : Consumes p) : Consumes (recognizeP p) := by
  intro s x r h
  obtain ⟨a, ha, -⟩ := recognizeP_eq_some h
  exact hp s a r ha

theorem eofP_splits : Splits eofP := by
  intro s a r h
  cases s with
  | nil =>
    simp only [eofP, Option.some_inj, Prod.mk.injEq] at h
    exact ⟨[], by simp [← h.2]⟩
  | cons c cs => simp [eofP] at h

theorem many0F_succ_none {p : Parser α} {n s} (hps : p s = none) :
    many0F p (n + 1) s = some ([], s) := by
  simp [many0F, hps]

theorem many0F_succ_some {p : Parser α} {n s x} (hps : p s = some x) :
    many0F p (n + 1) s =
      if x.2.length = s.length then none
      else (many0F p n x.2).map fun y => (x.1 :: y.1, y.2) := by
  simp [many0F, hps]

theorem many0F_splits {p : Parser α} (hp : Splits p) : ∀ fuel, Splits (many0F p fuel) := by
  intro fuel
  induction fuel with
  | zero =>
    intro s l r h
    simp [many0F] at h
  | succ n ih =>
    intro s l r h
    cases hps : p s with
    | none =>
      rw [many0F_succ_none hps] at h
      simp only [Option.some_inj, Prod.mk.injEq] at h
      exact ⟨[], by simp [← h.2]⟩
    | some x =>
      rw [many0F_succ_some hps] at h
      by_cases hl : x.2.length = s.length
      · simp [hl] at h
      · rw [if_neg hl] at h
        simp only [Option.map_eq_some'] at h
        obtain ⟨y, hy, he⟩ := h
        injection he with h1 h2
        subst h2
        obtain ⟨c2, hc2⟩ := ih x.2 y.1 y.2 (by rw [hy])
        obtain ⟨c1, hc1⟩ := hp s x.1 x.2 (by rw [hps])
        exact ⟨c1 ++ c2, by rw [hc1, hc2, List.append_assoc]⟩

theorem many0P_splits {p : Parser α} (hp : Splits p) : Splits (many0P p) := by
  intro s l r h
  exact many0F_splits hp (s.length + 1) s l r h

theorem many0F_mem {p : Parser α} :
    ∀ fuel s l r, many0F p fuel s = some (l, r) →
      ∀ a, a ∈ l → ∃ s' r', p s' = some (a, r') := by
  intro fuel
  induction fuel with
  | zero =>
    intro s l r h
    simp [many0F] at h
  | succ n ih =>
    intro s l r h
    cases hps : p s with
    | none =>
      rw [many0F_succ_none hps] at h
      simp only [Option.some_inj, Prod.mk.injEq] at h
      intro a ha
      rw [← h.1] at ha
      simp at ha
    | some x =>
      rw [many0F_succ_some hps] at h
      by_cases hl : x.2.length = s.length
      · simp [hl] at h
      · rw [if_neg hl] at h
        simp only [Option.map_eq_some'] at h
        obtain ⟨y, hy, he⟩ := h
        injection he with h1 h2
        subst h2
        intro a ha
        rw [← h1] at ha
        rcases List.mem_cons.mp ha with rfl | hmem
        · exact ⟨s, x.2, by rw [hps]⟩
        · exact ih x.2 y.1 y.2 (by rw [hy]) a hmem

theorem many0F_total {p : Parser α} (hc : Consumes p)
    (hprog : ∀ a t, ∃ x, p (a :: t) = some x) (hnil : p [] = none) :
    ∀ fuel s, s.length < fuel → ∃ l, many0F p fuel s = some (l, []) := by
  intro fuel
  induction fuel with
  | zero =>
    intro s h
    omega
  | succ n ih =>
    intro s hlen
    cases s with
    | nil => exact ⟨[], many0F_succ_none hnil⟩
    | cons a t =>
      obtain ⟨x, hx⟩ := hprog a t
      have hcons := hc (a :: t) x.1 x.2 (by rw [hx])
      have hne : ¬ x.2.length = (a :: t).length := by omega
      simp only [List.length_cons] at hcons hlen
      obtain ⟨l, hl⟩ := ih x.2 (by omega)
      refine ⟨x.1 :: l, ?_⟩
      rw [many0F_succ_some hx, if_neg hne, hl]
      rfl

theorem many1P_eq_some {p : Parser α} {s l r} (h : many1P p s = some (l, r)) :
    ∃ a r1 l1, p s = some (a, r1) ∧ many0P p r1 = some (l1, r) ∧ l = a :: l1 := by
  simp only [many1P, Option.bind_eq_some, Option.map_eq_some'] at h
  obtain ⟨⟨a, r1⟩, hp0, ⟨l1, r2⟩, hm, he⟩ := h
  injection he with h1 h2
  subst h2
  exact ⟨a, r1, l1, hp0, hm, h1.symm⟩

theorem many1P_splits {p : Parser α} (hp : Splits p) : Splits (many1P p) := by
  intro s l r h
  obtain ⟨a, r1, l1, h1, h2, -⟩ := many1P_eq_some h
  obtain ⟨c1, rfl⟩ := hp s a r1 h1
  obtain ⟨c2, rfl⟩ := many0P_splits hp r1 l1 r h2
  exact ⟨c1 ++ c2, (List.append_assoc c1 c2 r).symm⟩

theorem many1P_consumes {p : Parser α} (hp : Consumes p) (hsp : Splits p) :
    Consumes (many1P p) := by
  intro s l r h
  obtain ⟨a, r1, l1, h1, h2, -⟩ := many1P_eq_some h
  exact lt_of_le_of_lt ((many0P_splits hsp).bounded r1 l1 r h2) (hp s a r1 h1)

theorem manyMNF_succ_none {p : Parser α} {lo hi s} (hps : p s = none) :
    manyMNF p lo (hi + 1) s = if lo = 0 then some ([], s) else none := by
  simp [manyMNF, hps]

theorem manyMNF_succ_some {p : Parser α} {lo hi s x} (hps : p s = some x) :
    manyMNF p lo (hi + 1) s =
      if x.2.length = s.length then none
      else (manyMNF p (lo - 1) hi x.2).map fun y => (x.1 :: y.1, y.2) := by
  simp [manyMNF, hps]

theorem manyMNF_splits {p : Parser α} (hp : Splits p) :
    ∀ hi lo, Splits (manyMNF p lo hi) := by
  intro hi
  induction hi with
  | zero =>
    intro lo s l r h
    by_cases h0 : lo = 0
    · simp only [manyMNF, h0, if_true] at h
      simp only [Option.some_inj, Prod.mk.injEq] at h
      exact ⟨[], by simp [← h.2]⟩
    · simp [manyMNF, h0] at h
  | succ n ih =>
    intro lo s l r h
    cases hps : p s with
    | none =>
      rw [manyMNF_succ_none hps] at h
      by_cases h0 : lo = 0
      · rw [if_pos h0] at h
        simp only [Option.some_inj, Prod.mk.injEq] at h
        exact ⟨[], by simp [← h.2]⟩
      · simp [h0] at h
    | some x =>
      rw [manyMNF_succ_some hps] at h
      by_cases hl : x.2.length = s.length
      · simp [hl] at h
      · rw [if_neg hl] at h
        simp only [Option.map_eq_some'] at h
        obtain ⟨y, hy, he⟩ := h
        injection he with h1 h2
        subst h2
        obtain ⟨c2, hc2⟩ := ih (lo - 1) x.2 y.1 y.2 (by rw [hy])
        obtain ⟨c1, hc1⟩ := hp s x.1 x.2 (by rw [hps])
        exact ⟨c1 ++ c2, by rw [hc1, hc2, List.append_assoc]⟩

theorem orElseP_isSome_left {p q : Parser α} {s} (h : (p s).isSome) :
    ((orElseP p q) s).isSome := by
  unfold orElseP
  cases hp : p s with
  | none => rw [hp] at h; exact absurd h (by simp)
  | some y => rfl

theorem charP_splits (c : Char) : Splits (charP c) := satisfyP_splits _

theorem escapedP_splits (m : Bool) : Splits (escapedP m) := by
  unfold escapedP
  refine orElseP_splits (valueP_splits _ (tagP_splits _)) ?_
  refine orElseP_splits (valueP_splits _ (tagP_splits _)) ?_
  refine orElseP_splits (valueP_splits _ (tagP_splits _)) ?_
  refine orElseP_splits (valueP_splits _ (tagP_splits _)) ?_
  refine orElseP_splits (noneOfP_splits _) ?_
  exact skipP_splits (orElseP_splits (valueP_splits _ (tagP_splits _))
    (orElseP_splits (valueP_splits _ (tagP_splits _)) (noneOfP_splits _)))

theorem escapedP_consumes (m : Bool) : Consumes (escapedP m) := by
  unfold escapedP
  refine orElseP_consumes (valueP_consumes _ (tagP_consumes _ (by simp))) ?_
  refine orElseP_consumes (valueP_consumes _ (tagP_consumes _ (by simp))) ?_
  refine orElseP_consumes (valueP_consumes _ (tagP_consumes _ (by simp))) ?_
  refine orElseP_consumes (valueP_consumes _ (tagP_consumes _ (by simp))) ?_
  refine orElseP_consumes (noneOfP_consumes _) ?_
  exact skipP_consumes (orElseP_consumes (valueP_consumes _ (tagP_consumes _ (by simp)))
    (orElseP_consumes (valueP_consumes _ (tagP_consumes _ (by simp))) (noneOfP_consumes _)))

theorem plainP_splits (m : Bool) : Splits (plainP m) :=
  recognizeP_splits (many1P_splits (escapedP_splits m))

theorem plainP_consumes (m : Bool) : Consumes (plainP m) :=
  recognizeP_consumes (many1P_consumes (escapedP_consumes m) (escapedP_splits m))

theorem betweenP_splits (m : Bool) (a b : List Char) : Splits (betweenP m a b) :=
  delimitedP_splits (tagP_splits a) (plainP_splits m) (tagP_splits b)

theorem betweenP_consumes (m : Bool) {a : List Char} (b : List Char) (ha : a ≠ []) :
    Consumes (betweenP m a b) :=
  delimitedP_consumes (tagP_consumes a ha) (plainP_splits m).bounded
    (tagP_splits b).bounded

theorem markdownP_splits (m : Bool) : Splits (markdownP m) := by
  unfold markdownP
  exact orElseP_splits
    (mapP_splits (orElseP_splits (betweenP_splits m _ _)
      (orElseP_splits (betweenP_splits m _ _)
      (orElseP_splits (betweenP_splits m _ _) (betweenP_splits m _ _)))))
    (orElseP_splits
      (mapP_splits (orElseP_splits (betweenP_splits m _ _) (betweenP_splits m _ _)))
    (orElseP_splits
      (mapP_splits (orElseP_splits (betweenP_splits m _ _) (betweenP_splits m _ _)))
    (orElseP_splits (mapP_splits (betweenP_splits m _ _))
      (mapP_splits (betweenP_splits m _ _)))))

theorem markdownP_consumes (m : Bool) : Consumes (markdownP m) := by
  unfold markdownP
  exact orElseP_consumes
    (mapP_consumes (orElseP_consumes (betweenP_consumes m _ (by simp))
      (orElseP_consumes (betweenP_consumes m _ (by simp))
      (orElseP_consumes (betweenP_consumes m _ (by simp))
        (betweenP_consumes m _ (by simp))))))
    (orElseP_consumes
      (mapP_consumes (orElseP_consumes (betweenP_consumes m _ (by simp))
        (betweenP_consumes m _ (by simp))))
    (orElseP_consumes
      (mapP_consumes (orElseP_consumes (betweenP_consumes m _ (by simp))
        (betweenP_consumes m _ (by simp))))
    (orElseP_consumes (mapP_consumes (betweenP_consumes m _ (by simp)))
      (mapP_consumes (betweenP_consumes m _ (by simp))))))

theorem colorNameP_splits : Splits colorNameP := by
  unfold colorNameP
  refine orElseP_splits (mapP_splits (tagP_splits _)) ?_
  refine orElseP_splits (mapP_splits (tagP_splits _)) ?_
  refine orElseP_splits (mapP_splits (tagP_splits _)) ?_
  refine orElseP_splits (mapP_splits (tagP_splits _)) ?_
  refine orElseP_splits (mapP_splits (tagP_splits _)) ?_
  refine orElseP_splits (mapP_splits (tagP_splits _)) ?_
  refine orElseP_splits (mapP_splits (tagP_splits _)) ?_
  refine orElseP_splits (mapP_splits (tagP_splits _)) ?_
  refine orElseP_splits (mapP_splits (tagP_splits _)) ?_
  refine orElseP_splits (mapP_splits (tagP_splits _)) ?_
  refine orElseP_splits (mapP_splits (tagP_splits _)) ?_
  refine orElseP_splits (mapP_splits (tagP_splits _)) ?_
  refine orElseP_splits (mapP_splits (tagP_splits _)) ?_
  refine orElseP_splits (mapP_splits (tagP_splits _)) ?_
  exact orElseP_splits (mapP_splits (tagP_splits _)) (mapP_splits (tagP_splits _))

theorem colorDigitP_splits : Splits colorDigitP :=
  mapOptP_splits (recognizeP_splits (manyMNF_splits (satisfyP_splits _) 2 1))

theorem colorP_splits : Splits colorP :=
  orElseP_splits colorNameP_splits colorDigitP_splits

theorem backgroundP_splits : Splits backgroundP :=
  mapP_splits (optP_splits (andThenP_splits (charP_splits _) colorP_splits))

theorem startColorP_splits : Splits startColorP :=
  mapP_splits (andThenP_splits (tagP_splits _)
    (andThenP_splits colorP_splits backgroundP_splits))

theorem startColorP_consumes : Consumes startColorP :=
  mapP_consumes (andThenP_consumes_left (tagP_consumes _ (by simp))
    (andThenP_splits colorP_splits backgroundP_splits).bounded)

theorem dollarP_splits : Splits dollarP := by
  unfold dollarP
  refine orElseP_splits (mapP_splits (tagP_splits _)) ?_
  refine orElseP_splits (mapP_splits (tagP_splits _)) ?_
  refine orElseP_splits (mapP_splits (tagP_splits _)) ?_
  refine orElseP_splits (mapP_splits (tagP_splits _)) ?_
  exact orElseP_splits (mapP_splits startColorP_splits) (mapP_splits (tagP_splits _))

theorem dollarP_consumes : Consumes dollarP := by
  unfold dollarP
  refine orElseP_consumes (mapP_consumes (tagP_consumes _ (by simp))) ?_
  refine orElseP_consumes (mapP_consumes (tagP_consumes _ (by simp))) ?_
  refine orElseP_consumes (mapP_consumes (tagP_consumes _ (by simp))) ?_
  refine orElseP_consumes (mapP_consumes (tagP_consumes _ (by simp))) ?_
  exact orElseP_consumes (mapP_consumes startColorP_consumes)
    (mapP_consumes (tagP_consumes _ (by simp)))

theorem tokenP_splits (m : Bool) : Splits (tokenP m) := by
  unfold tokenP
  exact orElseP_splits (mapP_splits (plainP_splits m))
    (orElseP_splits (mapP_splits (markdownP_splits m))
    (orElseP_splits (skipP_splits (mapP_splits dollarP_splits))
      (mapP_splits anycharP_splits)))

theorem tokenP_consumes (m : Bool) : Consumes (tokenP m) := by
  unfold tokenP
  exact orElseP_consumes (mapP_consumes (plainP_consumes m))
    (orElseP_consumes (mapP_consumes (markdownP_consumes m))
    (orElseP_consumes (skipP_consumes (mapP_consumes dollarP_consumes))
      (mapP_consumes anycharP_consumes)))

theorem tokenP_nil (m : Bool) : tokenP m [] = none := by
  cases m <;> rfl

theorem tokenP_progress (m : Bool) (a : Char) (t : List Char) :
    ∃ x, tokenP m (a :: t) = some x := by
  have h4 : (mapP anycharP Token.Unknown (a :: t)).isSome := by
    simp [mapP, anycharP]
  have h3 := orElseP_isSome_right
    (p := skipP m (mapP dollarP Token.Dollar)) h4
  have h2 := orElseP_isSome_right (p := mapP (markdownP m) Token.Markdown) h3
  have h1 := orElseP_isSome_right (p := mapP (plainP m) Token.Plain) h2
  exact Option.isSome_iff_exists.mp h1

theorem parse_of_many0F {s : List Char} {m l}
    (h : many0F (tokenP m) (s.length + 1) s = some (l, [])) :
    parse s m = some l := by
  unfold parse andThenP many0P
  rw [h]
  rfl

theorem parse_total (s : List Char) (m : Bool) : ∃ ts, parse s m = some ts := by
  obtain ⟨l, hl⟩ := many0F_total (tokenP_consumes m) (tokenP_progress m)
    (tokenP_nil m) (s.length + 1) s (by omega)
  exact ⟨l, parse_of_many0F hl⟩

theorem encode_of_parse {s : List Char} {m ts} (h : parse s m = some ts) :
    encode s m = renderTokens ts := by
  unfold encode
  rw [h]
  rfl

theorem escapedP_false_progress (a : Char) (t : List Char) :
    ∃ x, escapedP false (a :: t) = some x := by
  by_cases hm : a ∈ ['*', '_', btick, '|']
  · have hd : ¬a ∈ ['$'] := by
      simp only [List.mem_cons, List.mem_singleton, List.not_mem_nil, or_false] at hm ⊢
      rcases hm with rfl | rfl | rfl | rfl <;> decide
    have h6 : ((noneOfP ['$']) (a :: t)).isSome := by
      rw [noneOfP_cons_not_mem hd]
      rfl
    have h5 := orElseP_isSome_right (p := valueP '$' (tagP ['$', '$'])) h6
    have h4 := orElseP_isSome_right (p := valueP '$' (tagP ['\\', '$'])) h5
    have hskip : ((skipP false (orElseP (valueP '$' (tagP ['\\', '$']))
        (orElseP (valueP '$' (tagP ['$', '$'])) (noneOfP ['$'])))) (a :: t)).isSome := by
      rw [skipP_false_eq]
      exact h4
    have h3 := orElseP_isSome_right (p := noneOfP ['*', '_', btick, '|']) hskip
    have h2 := orElseP_isSome_right (p := valueP '|' (tagP ['\\', '|'])) h3
    have h1 := orElseP_isSome_right (p := valueP btick (tagP ['\\', btick])) h2
    have h0 := orElseP_isSome_right (p := valueP '_' (tagP ['\\', '_'])) h1
    exact Option.isSome_iff_exists.mp (orElseP_isSome_right
      (p := valueP '*' (tagP ['\\', '*'])) h0)
  · have h5 : ((noneOfP ['*', '_', btick, '|']) (a :: t)).isSome := by
      rw [noneOfP_cons_not_mem hm]
      rfl
    have h3 := orElseP_isSome_left
      (q := skipP false (orElseP (valueP '$' (tagP ['\\', '$']))
        (orElseP (valueP '$' (tagP ['$', '$'])) (noneOfP ['$'])))) h5
    have h2 := orElseP_isSome_right (p := valueP '|' (tagP ['\\', '|'])) h3
    have h1 := orElseP_isSome_right (p := valueP btick (tagP ['\\', btick])) h2
    have h0 := orElseP_isSome_right (p := valueP '_' (tagP ['\\', '_'])) h1
    exact Option.isSome_iff_exists.mp (orElseP_isSome_right
      (p := valueP '*' (tagP ['\\', '*'])) h0)

theorem escapedP_false_nil : escapedP false [] = none := rfl

theorem plainP_false_full (s : List Char) (hne : s ≠ []) :
    plainP false s = some (s, []) := by
  cases s with
  | nil => exact absurd rfl hne
  | cons a t =>
    obtain ⟨x, hx⟩ := escapedP_false_progress a t
    have hlt := escapedP_consumes false (a :: t) x.1 x.2 (by rw [hx])
    obtain ⟨l, hl⟩ := many0F_total (escapedP_consumes false) escapedP_false_progress
      escapedP_false_nil (x.2.length + 1) x.2 (by omega)
    have hm1 : many1P (escapedP false) (a :: t) = some (x.1 :: l, []) := by
      unfold many1P
      rw [hx]
      show (many0P (escapedP false) x.2).map _ = _
      unfold many0P
      rw [hl]
      rfl
    unfold plainP recognizeP
    rw [hm1]
    simp

theorem tokenP_false_full (s : List Char) (hne : s ≠ []) :
    tokenP false s = some (Token.Plain s, []) := by
  have h := plainP_false_full s hne
  exact orElseP_some_left (by simp [mapP, h])

theorem parse_false (s : List Char) :
    parse s false = some (if s = [] then [] else [Token.Plain s]) := by
  cases s with
  | nil => rfl
  | cons a t =>
    rw [if_neg (by simp)]
    apply parse_of_many0F
    have h1 := tokenP_false_full (a :: t) (by simp)
    rw [many0F_succ_some h1, if_neg (by simp)]
    have h2 : many0F (tokenP false) (a :: t).length [] = some ([], []) := by
      rw [List.length_cons]
      exact many0F_succ_none (tokenP_nil false)
    rw [h2]
    rfl

theorem encode_false_ident (s : List Char) : encode s false = s := by
  cases s with
  | nil => rfl
  | cons a t =>
    have hp := parse_false (a :: t)
    rw [if_neg (by simp)] at hp
    rw [encode_of_parse hp]
    simp [renderTokens, renderToken]

theorem tokenP_true_no_dollar {s : List Char} {t r} (h : tokenP true s = some (t, r)) :
    ∀ d, t ≠ Token.Dollar d := by
  intro d
  unfold tokenP at h
  rcases orElseP_eq_some h with h1 | ⟨-, h2⟩
  · obtain ⟨a, -, rfl⟩ := mapP_eq_some h1
    exact fun hx => Token.noConfusion hx
  · rcases orElseP_eq_some h2 with h3 | ⟨-, h4⟩
    · obtain ⟨a, -, rfl⟩ := mapP_eq_some h3
      exact fun hx => Token.noConfusion hx
    · rcases orElseP_eq_some h4 with h5 | ⟨-, h6⟩
      · rw [skipP_true_none] at h5
        exact absurd h5 (by simp)
      · obtain ⟨a, -, rfl⟩ := mapP_eq_some h6
        exact fun hx => Token.noConfusion hx

theorem parse_mem {s : List Char} {m ts} (h : parse s m = some ts) :
    ∀ t, t ∈ ts → ∃ s' r', tokenP m s' = some (t, r') := by
  unfold parse at h
  simp only [Option.map_eq_some'] at h
  obtain ⟨⟨⟨l, u⟩, r⟩, ha, he⟩ := h
  dsimp only at he
  subst he
  obtain ⟨r1, h1, h2⟩ := andThenP_eq_some ha
  intro t ht
  exact many0F_mem (s.length + 1) s l r1 h1 t ht

theorem spanP_eq_some {p : Parser α} {s x r} (h : spanP p s = some (x, r)) :
    p s = some (x.1, r) ∧ x.2 = s.take (s.length - r.length) := by
  simp only [spanP, Option.map_eq_some'] at h
  obtain ⟨⟨a, r0⟩, hp, he⟩ := h
  injection he with h1 h2
  subst h2
  subst h1
  exact ⟨by rw [hp], rfl⟩

theorem spanP_none {p : Parser α} {s} (hps : p s = none) : spanP p s = none := by
  simp [spanP, hps]

theorem spanP_some {p : Parser α} {s x} (hps : p s = some x) :
    spanP p s = some ((x.1, s.take (s.length - x.2.length)), x.2) := by
  simp [spanP, hps]

theorem many0F_span_fst {p : Parser α} :
    ∀ fuel s l r, many0F (spanP p) fuel s = some (l, r) →
      many0F p fuel s = some (l.map Prod.fst, r) := by
  intro fuel
  induction fuel with
  | zero =>
    intro s l r h
    simp [many0F] at h
  | succ n ih =>
    intro s l r h
    cases hps : p s with
    | none =>
      rw [many0F_succ_none (spanP_none hps)] at h
      simp only [Option.some_inj, Prod.mk.injEq] at h
      rw [many0F_succ_none hps, ← h.1, ← h.2]
      rfl
    | some x =>
      rw [many0F_succ_some (spanP_some hps)] at h
      dsimp only at h
      by_cases hl : x.2.length = s.length
      · simp [hl] at h
      · rw [if_neg hl] at h
        simp only [Option.map_eq_some'] at h
        obtain ⟨y, hy, he⟩ := h
        injection he with h1 h2
        subst h2
        rw [many0F_succ_some hps, if_neg hl, ih x.2 y.1 y.2 (by rw [hy])]
        rw [← h1]
        rfl

theorem many0F_span_join {p : Parser α} (hp : Splits p) :
    ∀ fuel s l r, many0F (spanP p) fuel s = some (l, r) →
      (l.map Prod.snd).flatten ++ r = s := by
  intro fuel
  induction fuel with
  | zero =>
    intro s l r h
    simp [many0F] at h
  | succ n ih =>
    intro s l r h
    cases hps : p s with
    | none =>
      rw [many0F_succ_none (spanP_none hps)] at h
      simp only [Option.some_inj, Prod.mk.injEq] at h
      rw [← h.1, ← h.2]
      rfl
    | some x =>
      rw [many0F_succ_some (spanP_some hps)] at h
      dsimp only at h
      by_cases hl : x.2.length = s.length
      · simp [hl] at h
      · rw [if_neg hl] at h
        simp only [Option.map_eq_some'] at h
        obtain ⟨y, hy, he⟩ := h
        injection he with h1 h2
        subst h2
        obtain ⟨c, hc⟩ := hp s x.1 x.2 (by rw [hps])
        have htake : s.take (s.length - x.2.length) = c := by
          rw [hc, List.length_append, Nat.add_sub_cancel, List.take_left]
        have ihj := ih x.2 y.1 y.2 (by rw [hy])
        rw [← h1]
        simp only [List.map_cons, List.flatten_cons, List.append_assoc]
        rw [htake, ihj, hc]

/-- Claim C1: the spec expects `encode("**hi**", false)` to yield the Bold
modifier byte, `hi`, Bold byte.  The code disagrees: with
`markdown_only = false` the `none_of("$")` alternative of `escaped` accepts
the `*` delimiters, the whole input is one maximal plain run, and `encode`
returns `**hi**` unchanged with no modifier byte.  This theorem evaluates
the code at the failing input. -/
theorem bold_span_mode_false_unchanged :
    encode "**hi**".data false = "**hi**".data := by
  decide

/-- Claim C2: for every input string, `encode(s, false)` is the identity:
in this mode `escaped` accepts every character (reserved delimiters via the
final `none_of("$")` alternative), so the lexer yields one maximal `Plain`
token holding the whole input (or no token for empty input), and no
markdown span or dollar directive is ever recognized. -/
theorem encode_false_identity (s : List Char) :
    encode s false = s ∧
      parse s false = some (if s = [] then [] else [Token.Plain s]) :=
  ⟨encode_false_ident s, parse_false s⟩

/-- Claim C3: totality: for every input and both modes the lexer succeeds
and `encode` returns the rendering of its token sequence — there is no
failure outcome, and the fueled lexing loop terminates because every
top-level grammar step consumes at least one character. -/
theorem encode_total (s : List Char) (m : Bool) :
    ∃ ts, parse s m = some ts ∧ encode s m = renderTokens ts := by
  obtain ⟨ts, h⟩ := parse_total s m
  exact ⟨ts, h, encode_of_parse h⟩

/-- Claim C4: the spec expects `encode("\*not bold\*", false)` to collapse
the escapes to `*not bold*`.  The code disagrees twice over: in mode
`false` the whole input is one plain run, and `plain` is
`recognize(many1(escaped))`, which returns the raw consumed slice with the
backslashes still in it; the de-escaped characters built by `escaped` are
discarded.  This theorem evaluates the code at the failing input. -/
theorem escaped_input_mode_false_unchanged :
    encode "\\*not bold\\*".data false = "\\*not bold\\*".data := by
  decide

/-- Claim C5: with `markdown_only = true` the dollar grammar is disabled:
no token produced by the lexer is ever a `Dollar` directive, so no modifier
byte is emitted on account of a `$b` sequence, and `$b` itself passes
through as literal text. -/
theorem no_dollar_tokens_markdown_only :
    (∀ s ts, parse s true = some ts → ∀ t, t ∈ ts → ∀ d, t ≠ Token.Dollar d) ∧
      encode "$b".data true = "$b".data := by
  constructor
  · intro s ts hp t ht d
    obtain ⟨s', r', hts⟩ := parse_mem hp t ht
    exact tokenP_true_no_dollar hts d
  · decide

theorem no_dollar_tokens_markdown_only_witness :
    Token.Plain ['$', 'b'] ≠ Token.Dollar Dollar.Bold :=
  no_dollar_tokens_markdown_only.1 "$b".data [Token.Plain ['$', 'b']] (by decide)
    (Token.Plain ['$', 'b']) (by decide) Dollar.Bold

/-- Claim C6: the spec expects `encode("$c4,1hello$c", false)` to produce a
color start directive, `hello`, and an end-color byte.  The code disagrees:
in mode `false` the plain run consumes `$` via `none_of("*_`|")`, the
`dollar` grammar is never reached, and the input is returned unchanged.
This theorem evaluates the code at the failing input. -/
theorem color_directive_mode_false_unchanged :
    encode "$c4,1hello$c".data false = "$c4,1hello$c".data := by
  decide

/-- Claim C7: fallback exactness: the `let ... else` arm of `encode` that
handles a failed lex returns exactly the original input, byte for byte. -/
theorem fallback_returns_input (s : List Char) : encodeOpt none s = s := rfl

/-- Claim C8: the lexer never fails: `parse` returns a token sequence for
every input and both modes (the single-character `Unknown` alternative
always progresses), so the fallback branch of `encode` is unreachable and
`encode` always renders the token sequence. -/
theorem lexer_never_fails (s : List Char) (m : Bool) :
    (parse s m).isSome = true ∧
      encode s m = renderTokens ((parse s m).getD []) := by
  obtain ⟨ts, h⟩ := parse_total s m
  rw [h]
  exact ⟨rfl, encode_of_parse h⟩

/-- Claim C9: lexer coverage invariant: whenever the (span-instrumented)
lexer returns a token sequence, concatenating the input slices the tokens
were derived from, in order, reproduces the input exactly, and the plain
lexer returns exactly those tokens. -/
theorem token_spans_cover_input (s : List Char) (m : Bool)
    (tss : List (Token × List Char)) (h : parseSpans s m = some tss) :
    (tss.map Prod.snd).flatten = s ∧ parse s m = some (tss.map Prod.fst) := by
  unfold parseSpans at h
  simp only [Option.map_eq_some'] at h
  obtain ⟨⟨⟨l, u⟩, r⟩, ha, he⟩ := h
  dsimp only at he
  subst he
  obtain ⟨r1, h1, h2⟩ := andThenP_eq_some ha
  have hr1 : r1 = [] := eofP_eq_some h2
  subst hr1
  constructor
  · have hj := many0F_span_join (tokenP_splits m) (s.length + 1) s l [] h1
    simpa using hj
  · exact parse_of_many0F (many0F_span_fst (s.length + 1) s l [] h1)

theorem token_spans_cover_input_witness :
    (([(Token.Markdown (Markdown.Bold ['h', 'i']), "**hi**".data)].map
        Prod.snd).flatten = "**hi**".data) ∧
      parse "**hi**".data true
        = some ([(Token.Markdown (Markdown.Bold ['h', 'i']),
            "**hi**".data)].map Prod.fst) :=
  token_spans_cover_input "**hi**".data true
    [(Token.Markdown (Markdown.Bold ['h', 'i']), "**hi**".data)] (by decide)

/-- Claim C10: with `markdown_only = true` the plain-run parser rejects the
four reserved delimiters, so delimiter-balanced spans reach the markdown
grammar: `encode("**hi**", true)` is the Bold modifier byte, `hi`, Bold
modifier byte. -/
theorem bold_span_mode_true :
    encode "**hi**".data true
        = Modifier.char .Bold :: 'h' :: 'i' :: [Modifier.char .Bold] ∧
      (∀ rest, plainP true ('*' :: rest) = none) ∧
      (∀ rest, plainP true ('_' :: rest) = none) ∧
      (∀ rest, plainP true (btick :: rest) = none) ∧
      (∀ rest, plainP true ('|' :: rest) = none) :=
  ⟨by decide, fun _ => rfl, fun _ => rfl, fun _ => rfl, fun _ => rfl⟩

end Halloy
